import Mathlib

/-!
Verification of the RaidArrayDriver tagline driver and its write-back LRU
cache, as a shallow embedding of `src/tagline_driver.c` and
`src/raid_cache.c`.

Conventions of the embedding:
* C machine integers become `Nat`; the 64-bit opcode arithmetic never
  overflows for field values representable in the C struct types
  (`uint8_t` fields and a 32-bit block id), so no `% 2^64` is needed.
* A `RAID_BLOCK_SIZE`-byte data buffer is modelled atomically as a single
  `Nat` (the code only ever `memcpy`s whole blocks and compares nothing
  inside them).
* The bus is modelled as always answering with status 0 and echoing the
  request (the success path); the RAID array contents live in an explicit
  `disk : PhysKey → Nat` component updated by eviction write-backs and
  reset by FORMAT.
* The cache's hash table (`hashtable` + chained `HASH_NODE`s keyed on the
  exact `(disk, block)` pair) together with the doubly linked queue
  implement a finite map with a recency order; they are embedded as one
  association list ordered front (LRU) to back (MRU), which is exactly
  the queue order of `raid_cache.c` (`front_ptr` = LRU, `back_ptr` = MRU).
-/

namespace RaidArray

/-- Number of disks, `RAID_DISKS` in tagline_driver.h. -/
def RAID_DISKS : Nat := 9

/-- Blocks per disk, `RAID_DISKBLOCKS` in tagline_driver.h. -/
def RAID_DISKBLOCKS : Nat := 4096

/-- Modelled from the spec: `TAGLINE_CACHE_SIZE` is defined in
`raid_cache.h`, which is not part of the sources; the spec fixes the cache
capacity at `2 * BLOCKS_PER_DISK = 8192` entries. The theorems below are
parameterised over the capacity and only use this constant in witnesses. -/
def TAGLINE_CACHE_SIZE : Nat := 8192

/-! ## Opcode codec (`generate_RAIDOpCode` / `decode_RAIDOpCode`) -/

/-- The decoded opcode record of `tagline_driver.c` (`RAID_REQUEST` /
`RAID_RESPONSE`): `request_type`, `number_of_blocks`, `disk_number` and
`reserved` are `uint8_t`, `status` is `uint8_t` holding one bit, and
`blockid` is a 32-bit `RAIDBlockID`. -/
structure RAID_REQUEST where
  request_type : Nat
  number_of_blocks : Nat
  disk_number : Nat
  reserved : Nat
  status : Nat
  blockid : Nat
deriving DecidableEq, Repr

/-- Responses share the request layout (`typedef ... RAID_REQUEST,
RAID_RESPONSE`). -/
abbrev RAID_RESPONSE := RAID_REQUEST

/-- Encoder `generate_RAIDOpCode`: successive shift-and-add packing of the fields
into a 64-bit word; shifts are 8, 8, 7, 1 and 32 bits, so the layout is
type 63–56, blocks 55–48, disk 47–40, reserved 39–33, status 32,
blockid 31–0. -/
def generate_RAIDOpCode (o : RAID_REQUEST) : Nat :=
  ((((o.request_type * 2 ^ 8 + o.number_of_blocks) * 2 ^ 8 + o.disk_number) * 2 ^ 7
      + o.reserved) * 2 + o.status) * 2 ^ 32 + o.blockid

/-- Decoder `decode_RAIDOpCode`: mask-and-shift extraction.  Note the reserved
field is extracted with mask `0x3F` (six bits) although the cursor then
advances by seven bits. -/
def decode_RAIDOpCode (op : Nat) : RAID_RESPONSE where
  blockid := op % 2 ^ 32
  status := op / 2 ^ 32 % 2
  reserved := op / 2 ^ 33 % 2 ^ 6
  disk_number := op / 2 ^ 40 % 2 ^ 8
  number_of_blocks := op / 2 ^ 48 % 2 ^ 8
  request_type := op / 2 ^ 56 % 2 ^ 8

/-- Validator `check_response`: full field-by-field comparison of a request with the
decoded response, also requiring a clear status bit.  Used by
`tagline_driver_init` (INIT and the per-disk FORMATs) and `tagline_close`
(CLOSE). -/
def check_response (request response : RAID_REQUEST) : Bool :=
  request.request_type = response.request_type ∧
    request.number_of_blocks = response.number_of_blocks ∧
      request.disk_number = response.disk_number ∧
        response.status = 0 ∧ request.blockid = response.blockid

/-- The only validation applied to bus responses on the other call sites:
`tagline_read` (the RAID READ), `raid_disk_signal` (STATUS, FORMAT and the
two recovery READs) and `evict_lru` (the eviction WRITE) each test just
`response->status != 0`. -/
def status_only_check (response : RAID_RESPONSE) : Bool :=
  response.status = 0

/-- C3, counterexample: a request whose fields all fit the claimed widths
(in particular `reserved = 64 < 2^7`) does not survive the decode∘encode
round trip: the decoder's `0x3F` mask drops the seventh reserved bit. -/
theorem roundtrip_drops_seventh_reserved_bit :
    (RAID_REQUEST.mk 5 1 2 64 0 7).reserved < 2 ^ 7 ∧
      decode_RAIDOpCode (generate_RAIDOpCode (RAID_REQUEST.mk 5 1 2 64 0 7)) ≠
        RAID_REQUEST.mk 5 1 2 64 0 7 ∧
      (decode_RAIDOpCode (generate_RAIDOpCode (RAID_REQUEST.mk 5 1 2 64 0 7))).reserved = 0 := by
  refine ⟨by decide, by decide, by decide⟩

/-- C3, amended: the codec round-trips exactly the requests whose
`request_type`, `number_of_blocks` and `disk_number` fit 8 bits, whose
`status` fits 1 bit, whose `blockid` fits 32 bits, and whose `reserved`
fits 6 bits (not the full 7-bit slot of the layout). -/
theorem roundtrip_on_six_bit_reserved (o : RAID_REQUEST)
    (ht : o.request_type < 2 ^ 8) (hn : o.number_of_blocks < 2 ^ 8)
    (hd : o.disk_number < 2 ^ 8) (hr : o.reserved < 2 ^ 6)
    (hs : o.status < 2) (hb : o.blockid < 2 ^ 32) :
    decode_RAIDOpCode (generate_RAIDOpCode o) = o := by
  obtain ⟨t, n, d, r, s, b⟩ := o
  simp only [generate_RAIDOpCode, decode_RAIDOpCode, RAID_REQUEST.mk.injEq] at *
  refine ⟨?_, ?_, ?_, ?_, ?_, ?_⟩ <;> omega

/-- C3, witness for the amended round-trip theorem at a concrete request. -/
theorem roundtrip_on_six_bit_reserved_witness :
    decode_RAIDOpCode (generate_RAIDOpCode (RAID_REQUEST.mk 5 1 2 63 1 77)) =
      RAID_REQUEST.mk 5 1 2 63 1 77 :=
  roundtrip_on_six_bit_reserved (RAID_REQUEST.mk 5 1 2 63 1 77)
    (by decide) (by decide) (by decide) (by decide) (by decide) (by decide)

/-- C7, counterexample: a READ response whose echoed `disk_number` does
not match the request but whose status bit is clear passes the only check
`tagline_read` performs (`status_only_check`), even though the full
`check_response` rejects it — so a field mismatch does not make the read
fail, contradicting the claim that every bus response is field-checked. -/
theorem read_accepts_mismatched_disk_number :
    (RAID_REQUEST.mk 3 1 2 0 0 5).disk_number ≠ (RAID_REQUEST.mk 3 1 7 0 0 5).disk_number ∧
      status_only_check (RAID_REQUEST.mk 3 1 7 0 0 5) = true ∧
      check_response (RAID_REQUEST.mk 3 1 2 0 0 5) (RAID_REQUEST.mk 3 1 7 0 0 5) = false := by
  refine ⟨by decide, by decide, by decide⟩

/-- C7, amended: `check_response` (used for INIT, the FORMATs of
`tagline_driver_init`, and CLOSE) accepts exactly the responses echoing
all four fields with a clear status bit, while the READ / STATUS /
recovery-FORMAT / eviction-WRITE call sites accept exactly the responses
with a clear status bit, ignoring the echoed fields. -/
theorem response_validation_split (request response : RAID_REQUEST) :
    (check_response request response = true ↔
      (request.request_type = response.request_type ∧
        request.number_of_blocks = response.number_of_blocks ∧
        request.disk_number = response.disk_number ∧
        response.status = 0 ∧ request.blockid = response.blockid)) ∧
      (status_only_check response = true ↔ response.status = 0) := by
  constructor
  · simp [check_response]
  · simp [status_only_check]

/-! ## Cache model (`raid_cache.c`)

The queue of `raid_cache.c` is kept front (`front_ptr`, the LRU end) to
back (`back_ptr`, the MRU end); the hash table maps an exact
`(disk, block)` pair to its live queue node (`cache_block_ptr`), chained
buckets resolving collisions by comparing both fields.  The pair
(hash table, queue) is embedded as one association list ordered LRU
first. -/

/-- A physical `(disk, block)` address; the key type of the cache and the
payload of a `SCHEDULED_BLOCK`. -/
structure PhysKey where
  disk : Nat
  block : Nat
deriving DecidableEq, Repr

/-- The cache queue plus the RAID array contents behind the bus: `cache`
is the queue (LRU first), `disk` gives the current contents of every
physical block as established by FORMATs and eviction write-backs. -/
structure RaidState where
  cache : List (PhysKey × Nat)
  disk : PhysKey → Nat

/-- Exact-key search, as performed by the chained hash-bucket walk
(`current_hash_node->disk == dsk && current_hash_node->block == blk`). -/
def lookupKey : List (PhysKey × Nat) → PhysKey → Option Nat
  | [], _ => none
  | e :: rest, k => if k = e.1 then some e.2 else lookupKey rest k

/-- Unlinking the (unique) node of a key from the queue, the first half of
`update_block_in_queue`'s move-to-back. -/
def removeKey : List (PhysKey × Nat) → PhysKey → List (PhysKey × Nat)
  | [], _ => []
  | e :: rest, k => if k = e.1 then rest else e :: removeKey rest k

/-- The keys currently holding a live queue node. -/
def keysOf (l : List (PhysKey × Nat)) : List PhysKey :=
  l.map Prod.fst

/-- Eviction `evict_lru`: writes the front (LRU) node's buffer through to the RAID
array for its `(disk, block)` pair, then frees the node.  With an empty
queue the C code reports an error and changes nothing. -/
def evict_lru (r : RaidState) : RaidState :=
  match r.cache with
  | [] => r
  | lru :: rest =>
      { cache := rest, disk := fun k => if k = lru.1 then lru.2 else r.disk k }

/-- Insertion `insert_in_queue`: append the new node at the back (MRU) and, if the
entry count now exceeds `TAGLINE_CACHE_SIZE` (the parameter `cap`), evict
the LRU entry. -/
def insert_in_queue (cap : Nat) (k : PhysKey) (v : Nat) (r : RaidState) : RaidState :=
  let r1 : RaidState := { r with cache := r.cache ++ [(k, v)] }
  if cap < r1.cache.length then evict_lru r1 else r1

/-- Put `put_raid_cache`: if the key has a live entry, overwrite its buffer
and move it to the MRU end (`update_block_in_queue`); otherwise insert a
fresh node.  The first two insertion branches mirror the special cases for
queue sizes 0 and 1 in the `hashtable[hash_value] == NULL` path, which
append without an eviction check. -/
def put_raid_cache (cap : Nat) (k : PhysKey) (v : Nat) (r : RaidState) : RaidState :=
  match lookupKey r.cache k with
  | some _ => { r with cache := removeKey r.cache k ++ [(k, v)] }
  | none =>
      if r.cache.length = 0 then { r with cache := [(k, v)] }
      else if r.cache.length = 1 then { r with cache := r.cache ++ [(k, v)] }
      else insert_in_queue cap k v r

/-- Get `get_raid_cache`: pure lookup returning the cached buffer on a hit and
nothing on a miss; the queue order is not changed by a get. -/
def get_raid_cache (r : RaidState) (k : PhysKey) : Option Nat :=
  lookupKey r.cache k

/-- The authoritative bytes currently associated with a physical address:
the cached buffer if the key is live in the cache, the RAID array
contents otherwise. -/
def value_of (r : RaidState) (k : PhysKey) : Nat :=
  match lookupKey r.cache k with
  | some v => v
  | none => r.disk k

/-- The cache's own well-formedness: at most one live entry per key. -/
def cacheWF (r : RaidState) : Prop :=
  (keysOf r.cache).Nodup

/-! ### Association-list lemmas -/

@[simp]
theorem keysOf_nil : keysOf [] = [] := rfl

@[simp]
theorem keysOf_cons {e : PhysKey × Nat} {l : List (PhysKey × Nat)} :
    keysOf (e :: l) = e.1 :: keysOf l := rfl

@[simp]
theorem keysOf_append {l₁ l₂ : List (PhysKey × Nat)} :
    keysOf (l₁ ++ l₂) = keysOf l₁ ++ keysOf l₂ := by
  simp [keysOf]

theorem lookupKey_cons {e : PhysKey × Nat} {l : List (PhysKey × Nat)} {k : PhysKey} :
    lookupKey (e :: l) k = if k = e.1 then some e.2 else lookupKey l k := rfl

theorem lookupKey_eq_none {l : List (PhysKey × Nat)} {k : PhysKey} :
    lookupKey l k = none ↔ k ∉ keysOf l := by
  induction l with
  | nil => simp [lookupKey]
  | cons e rest ih =>
      by_cases h : k = e.1 <;> simp [lookupKey_cons, h, ih]

theorem lookupKey_append {l₁ l₂ : List (PhysKey × Nat)} {k : PhysKey} :
    lookupKey (l₁ ++ l₂) k =
      match lookupKey l₁ k with
      | some v => some v
      | none => lookupKey l₂ k := by
  induction l₁ with
  | nil => simp [lookupKey]
  | cons e rest ih => by_cases h : k = e.1 <;> simp [lookupKey, h, ih]

theorem lookupKey_append_left {l₁ l₂ : List (PhysKey × Nat)} {k : PhysKey} {v : Nat}
    (h : lookupKey l₁ k = some v) : lookupKey (l₁ ++ l₂) k = some v := by
  rw [lookupKey_append, h]

theorem lookupKey_append_right {l₁ l₂ : List (PhysKey × Nat)} {k : PhysKey}
    (h : lookupKey l₁ k = none) : lookupKey (l₁ ++ l₂) k = lookupKey l₂ k := by
  rw [lookupKey_append, h]

theorem lookupKey_singleton_self {k : PhysKey} {v : Nat} :
    lookupKey [(k, v)] k = some v := by
  simp [lookupKey]

theorem lookupKey_singleton_ne {k k' : PhysKey} {v : Nat} (h : k ≠ k') :
    lookupKey [(k', v)] k = none := by
  simp [lookupKey, h]

theorem lookupKey_removeKey_ne {l : List (PhysKey × Nat)} {k k' : PhysKey} (h : k ≠ k') :
    lookupKey (removeKey l k') k = lookupKey l k := by
  induction l with
  | nil => simp [removeKey]
  | cons e rest ih =>
      by_cases he : k' = e.1
      · subst he
        simp [removeKey, lookupKey, h]
      · by_cases hk : k = e.1 <;> simp [removeKey, lookupKey, he, hk, ih]

theorem keysOf_removeKey_subset {l : List (PhysKey × Nat)} {k k' : PhysKey}
    (h : k ∈ keysOf (removeKey l k')) : k ∈ keysOf l := by
  induction l with
  | nil => simp [removeKey] at h
  | cons e rest ih =>
      by_cases he : k' = e.1
      · rw [removeKey, if_pos he] at h
        simp only [keysOf_cons, List.mem_cons]
        exact Or.inr h
      · rw [removeKey, if_neg he] at h
        simp only [keysOf_cons, List.mem_cons] at h ⊢
        rcases h with h | h
        · exact Or.inl h
        · exact Or.inr (ih h)

theorem not_mem_keysOf_removeKey {l : List (PhysKey × Nat)} {k : PhysKey}
    (h : (keysOf l).Nodup) : k ∉ keysOf (removeKey l k) := by
  induction l with
  | nil => simp [removeKey]
  | cons e rest ih =>
      simp only [keysOf_cons, List.nodup_cons] at h
      by_cases he : k = e.1
      · rw [removeKey, if_pos he]
        subst he
        exact h.1
      · rw [removeKey, if_neg he]
        simp only [keysOf_cons, List.mem_cons]
        rintro (h1 | h2)
        · exact he h1
        · exact ih h.2 h2

theorem nodup_keysOf_removeKey {l : List (PhysKey × Nat)} {k : PhysKey}
    (h : (keysOf l).Nodup) : (keysOf (removeKey l k)).Nodup := by
  induction l with
  | nil => simp [removeKey]
  | cons e rest ih =>
      simp only [keysOf_cons, List.nodup_cons] at h
      by_cases he : k = e.1
      · rw [removeKey, if_pos he]
        exact h.2
      · rw [removeKey, if_neg he]
        simp only [keysOf_cons, List.nodup_cons]
        exact ⟨fun hmem => h.1 (keysOf_removeKey_subset hmem), ih h.2⟩

theorem nodup_keysOf_append_single {l : List (PhysKey × Nat)} {k : PhysKey} {v : Nat}
    (h : (keysOf l).Nodup) (hk : k ∉ keysOf l) : (keysOf (l ++ [(k, v)])).Nodup := by
  simp only [keysOf_append, List.nodup_append, keysOf_cons, keysOf_nil]
  refine ⟨h, by simp, ?_⟩
  intro a ha
  simp only [List.mem_singleton]
  intro hb
  subst hb
  exact hk ha

/-! ### `value_of` under cache operations -/

theorem lookupKey_cons_none {e : PhysKey × Nat} {l : List (PhysKey × Nat)} {k : PhysKey}
    (h : lookupKey (e :: l) k = none) : k ≠ e.1 ∧ lookupKey l k = none := by
  rw [lookupKey_cons] at h
  by_cases hk : k = e.1
  · simp [hk] at h
  · exact ⟨hk, by simpa [hk] using h⟩

theorem lookupKey_fresh_append {l : List (PhysKey × Nat)} {k : PhysKey} {v : Nat}
    (h : lookupKey l k = none) : lookupKey (l ++ [(k, v)]) k = some v := by
  rw [lookupKey_append_right h, lookupKey_singleton_self]



theorem length_ne_zero_cons2 {e₁ e₂ : PhysKey × Nat} {rest : List (PhysKey × Nat)} :
    ¬(e₁ :: e₂ :: rest).length = 0 := by
  simp

theorem length_ne_one_cons2 {e₁ e₂ : PhysKey × Nat} {rest : List (PhysKey × Nat)} :
    ¬(e₁ :: e₂ :: rest).length = 1 := by
  simp


theorem cacheWF_put (cap : Nat) (k : PhysKey) (v : Nat) (r : RaidState)
    (h : cacheWF r) : cacheWF (put_raid_cache cap k v r) := by
  obtain ⟨c, dsk⟩ := r
  unfold cacheWF at *
  simp only at h ⊢
  unfold put_raid_cache
  cases hl : lookupKey c k with
  | some w =>
      exact nodup_keysOf_append_single (nodup_keysOf_removeKey h) (not_mem_keysOf_removeKey h)
  | none =>
      have hk : k ∉ keysOf c := lookupKey_eq_none.1 hl
      match c, h, hk with
      | [], h, hk => simp
      | [e], h, hk => exact nodup_keysOf_append_single h hk
      | e₁ :: e₂ :: rest, h, hk =>
          have happ : (keysOf ((e₁ :: e₂ :: rest) ++ [(k, v)])).Nodup :=
            nodup_keysOf_append_single h hk
          show (keysOf (if cap < ((e₁ :: e₂ :: rest) ++ [(k, v)]).length then
              evict_lru ⟨(e₁ :: e₂ :: rest) ++ [(k, v)], dsk⟩
            else ⟨(e₁ :: e₂ :: rest) ++ [(k, v)], dsk⟩).cache).Nodup
          by_cases hcap : cap < ((e₁ :: e₂ :: rest) ++ [(k, v)]).length
          · rw [if_pos hcap]
            show (keysOf (e₂ :: (rest ++ [(k, v)]))).Nodup
            rw [List.cons_append, List.cons_append, keysOf_cons, List.nodup_cons] at happ
            exact happ.2
          · rw [if_neg hcap]
            exact happ

theorem value_of_put_self (cap : Nat) (k : PhysKey) (v : Nat) (r : RaidState)
    (h : cacheWF r) : value_of (put_raid_cache cap k v r) k = v := by
  obtain ⟨c, dsk⟩ := r
  unfold cacheWF at h
  simp only at h
  unfold put_raid_cache
  cases hl : lookupKey c k with
  | some w =>
      have hrem : lookupKey (removeKey c k) k = none :=
        lookupKey_eq_none.2 (not_mem_keysOf_removeKey h)
      unfold value_of
      simp only [lookupKey_fresh_append hrem]
  | none =>
      match c, h, hl with
      | [], h, hl =>
          show value_of ⟨[(k, v)], dsk⟩ k = v
          unfold value_of
          simp only [lookupKey_singleton_self]
      | [e], h, hl =>
          have hke : k ≠ e.1 := (lookupKey_cons_none hl).1
          show value_of ⟨[e] ++ [(k, v)], dsk⟩ k = v
          unfold value_of
          simp only [List.singleton_append, lookupKey_cons, if_neg hke,
            if_pos rfl, if_true]
      | e₁ :: e₂ :: rest, h, hl =>
          obtain ⟨hk1, hl2⟩ := lookupKey_cons_none hl
          obtain ⟨hk2, hl3⟩ := lookupKey_cons_none hl2
          have hfresh : lookupKey (rest ++ [(k, v)]) k = some v := lookupKey_fresh_append hl3
          show value_of (if cap < ((e₁ :: e₂ :: rest) ++ [(k, v)]).length then
              evict_lru ⟨(e₁ :: e₂ :: rest) ++ [(k, v)], dsk⟩
            else ⟨(e₁ :: e₂ :: rest) ++ [(k, v)], dsk⟩) k = v
          by_cases hcap : cap < ((e₁ :: e₂ :: rest) ++ [(k, v)]).length
          · rw [if_pos hcap]
            show value_of ⟨e₂ :: (rest ++ [(k, v)]),
              fun x => if x = e₁.1 then e₁.2 else dsk x⟩ k = v
            unfold value_of
            simp only [lookupKey_cons, if_neg hk2, hfresh]
          · rw [if_neg hcap]
            show value_of ⟨e₁ :: (e₂ :: (rest ++ [(k, v)])), dsk⟩ k = v
            unfold value_of
            simp only [lookupKey_cons, if_neg hk1, if_neg hk2, hfresh]

theorem value_of_put_other (cap : Nat) (k k' : PhysKey) (v : Nat) (r : RaidState)
    (h : cacheWF r) (hne : k ≠ k') :
    value_of (put_raid_cache cap k' v r) k = value_of r k := by
  obtain ⟨c, dsk⟩ := r
  unfold cacheWF at h
  simp only at h
  unfold put_raid_cache
  cases hl : lookupKey c k' with
  | some w =>
      have hstep : lookupKey (removeKey c k' ++ [(k', v)]) k = lookupKey c k := by
        rw [lookupKey_append, lookupKey_removeKey_ne hne]
        cases hk : lookupKey c k with
        | some u => rfl
        | none => simp [lookupKey_singleton_ne hne]
      unfold value_of
      simp only [hstep]
  | none =>
      match c, h, hl with
      | [], h, hl =>
          show value_of ⟨[(k', v)], dsk⟩ k = value_of ⟨[], dsk⟩ k
          unfold value_of
          rw [lookupKey_singleton_ne hne]
          rfl
      | [e], h, hl =>
          show value_of ⟨[e] ++ [(k', v)], dsk⟩ k = value_of ⟨[e], dsk⟩ k
          have hstep : lookupKey ([e] ++ [(k', v)]) k = lookupKey [e] k := by
            rw [lookupKey_append]
            cases hk : lookupKey [e] k with
            | some u => rfl
            | none => simp [lookupKey_singleton_ne hne]
          unfold value_of
          simp only [hstep]
      | e₁ :: e₂ :: rest, h, hl =>
          obtain ⟨hne1, hl2⟩ := lookupKey_cons_none hl
          obtain ⟨hne2, hl3⟩ := lookupKey_cons_none hl2
          show value_of (if cap < ((e₁ :: e₂ :: rest) ++ [(k', v)]).length then
              evict_lru ⟨(e₁ :: e₂ :: rest) ++ [(k', v)], dsk⟩
            else ⟨(e₁ :: e₂ :: rest) ++ [(k', v)], dsk⟩) k = value_of ⟨e₁ :: e₂ :: rest, dsk⟩ k
          by_cases hcap : cap < ((e₁ :: e₂ :: rest) ++ [(k', v)]).length
          · rw [if_pos hcap]
            show value_of ⟨e₂ :: (rest ++ [(k', v)]),
              fun x => if x = e₁.1 then e₁.2 else dsk x⟩ k = value_of ⟨e₁ :: e₂ :: rest, dsk⟩ k
            by_cases hk1 : k = e₁.1
            · rw [keysOf_cons, List.nodup_cons] at h
              have htail : lookupKey (e₂ :: rest) k = none := by
                apply lookupKey_eq_none.2
                rw [hk1]
                exact h.1
              have hnone : lookupKey (e₂ :: (rest ++ [(k', v)])) k = none := by
                have h2 : lookupKey ((e₂ :: rest) ++ [(k', v)]) k = none := by
                  rw [lookupKey_append_right htail, lookupKey_singleton_ne hne]
                rw [List.cons_append] at h2
                exact h2
              have hR : lookupKey (e₁ :: e₂ :: rest) k = some e₁.2 := by
                rw [lookupKey_cons, if_pos hk1]
              unfold value_of
              simp only [hnone, hR, if_pos hk1]
            · have hLHS : lookupKey (e₂ :: (rest ++ [(k', v)])) k = lookupKey (e₂ :: rest) k := by
                by_cases hk2 : k = e₂.1
                · rw [lookupKey_cons, if_pos hk2, lookupKey_cons, if_pos hk2]
                · rw [lookupKey_cons, if_neg hk2, lookupKey_cons, if_neg hk2, lookupKey_append]
                  cases hk3 : lookupKey rest k with
                  | some u => rfl
                  | none => simp [lookupKey_singleton_ne hne]
              have hR : lookupKey (e₁ :: e₂ :: rest) k = lookupKey (e₂ :: rest) k := by
                rw [lookupKey_cons, if_neg hk1]
              unfold value_of
              rw [hLHS, hR]
              cases hfin : lookupKey (e₂ :: rest) k with
              | some u => rfl
              | none => simp only [if_neg hk1]
          · rw [if_neg hcap]
            show value_of ⟨e₁ :: (e₂ :: (rest ++ [(k', v)])), dsk⟩ k = value_of ⟨e₁ :: e₂ :: rest, dsk⟩ k
            have hstep : lookupKey (e₁ :: (e₂ :: (rest ++ [(k', v)]))) k
                = lookupKey (e₁ :: e₂ :: rest) k := by
              simp only [lookupKey_cons]
              by_cases hk1 : k = e₁.1
              · simp [hk1]
              · by_cases hk2 : k = e₂.1
                · simp [hk1, hk2]
                · simp only [if_neg hk1, if_neg hk2, lookupKey_append]
                  cases hk3 : lookupKey rest k with
                  | some u => rfl
                  | none => simp [lookupKey_singleton_ne hne]
            unfold value_of
            rw [hstep]

/-! ### Cache operation sequences and the capacity bound -/

/-- The cache's public operations after `init_raid_cache`: `put` and
`get` (a get never modifies the cache state). -/
inductive CacheOp where
  | put (k : PhysKey) (v : Nat)
  | get (k : PhysKey)
deriving DecidableEq, Repr

/-- The `(disk, block)` key an operation addresses. -/
def CacheOp.key : CacheOp → PhysKey
  | .put k _ => k
  | .get k => k

/-- Initialisation `init_raid_cache`: an empty queue in front of a freshly formatted
array. -/
def init_raid_cache : RaidState :=
  ⟨[], fun _ => 0⟩

/-- State effect of one cache operation; `get_raid_cache` is read-only. -/
def applyCacheOp (cap : Nat) (r : RaidState) : CacheOp → RaidState
  | .put k v => put_raid_cache cap k v r
  | .get _ => r

/-- Running a sequence of cache operations from the initial cache. -/
def runCacheOps (cap : Nat) (ops : List CacheOp) : RaidState :=
  ops.foldl (applyCacheOp cap) init_raid_cache

theorem removeKey_length_of_mem {l : List (PhysKey × Nat)} {k : PhysKey} {w : Nat}
    (h : lookupKey l k = some w) : (removeKey l k).length + 1 = l.length := by
  induction l with
  | nil => simp [lookupKey] at h
  | cons e rest ih =>
      by_cases he : k = e.1
      · rw [removeKey, if_pos he]
        simp
      · rw [lookupKey_cons, if_neg he] at h
        rw [removeKey, if_neg he, List.length_cons, List.length_cons, ih h]

theorem put_length_le (cap : Nat) (hcap : 2 ≤ cap) (k : PhysKey) (v : Nat) (r : RaidState)
    (h : r.cache.length ≤ cap) : (put_raid_cache cap k v r).cache.length ≤ cap := by
  obtain ⟨c, dsk⟩ := r
  simp only at h
  unfold put_raid_cache
  cases hl : lookupKey c k with
  | some w =>
      have := removeKey_length_of_mem hl
      simp only [List.length_append, List.length_cons, List.length_nil]
      omega
  | none =>
      match c, h with
      | [], h =>
          simp only [List.length_cons, List.length_nil]
          simp
          omega
      | [e], h =>
          simp
          omega
      | e₁ :: e₂ :: rest, h =>
          show (if cap < ((e₁ :: e₂ :: rest) ++ [(k, v)]).length then
              evict_lru ⟨(e₁ :: e₂ :: rest) ++ [(k, v)], dsk⟩
            else ⟨(e₁ :: e₂ :: rest) ++ [(k, v)], dsk⟩).cache.length ≤ cap
          by_cases hcap2 : cap < ((e₁ :: e₂ :: rest) ++ [(k, v)]).length
          · rw [if_pos hcap2]
            show (e₂ :: (rest ++ [(k, v)])).length ≤ cap
            simp only [List.length_cons, List.length_append, List.length_nil] at h ⊢
            omega
          · rw [if_neg hcap2]
            simp only [List.length_cons, List.length_append, List.length_nil] at hcap2 ⊢
            omega

theorem runCacheOps_length_le (cap : Nat) (hcap : 2 ≤ cap) :
    ∀ (ops : List CacheOp) (r : RaidState), r.cache.length ≤ cap →
      (ops.foldl (applyCacheOp cap) r).cache.length ≤ cap := by
  intro ops
  induction ops with
  | nil => intro r h; simpa using h
  | cons op rest ih =>
      intro r h
      cases op with
      | put k v => exact ih _ (put_length_le cap hcap k v r h)
      | get k => exact ih _ h

/-- C9: quiescent cache size never exceeds the capacity, and a put of a
fresh key at full capacity evicts the LRU (front) entry, writing its
buffer through to the RAID array before removing it. -/
theorem cache_capacity_bound (cap : Nat) (hcap : 2 ≤ cap) :
    (∀ ops : List CacheOp, (runCacheOps cap ops).cache.length ≤ cap) ∧
      (∀ (r : RaidState) (k : PhysKey) (v : Nat),
        lookupKey r.cache k = none → r.cache.length = cap →
        ∃ klru vlru rest, r.cache = (klru, vlru) :: rest ∧
          (put_raid_cache cap k v r).cache = rest ++ [(k, v)] ∧
          (put_raid_cache cap k v r).disk klru = vlru) := by
  constructor
  · intro ops
    exact runCacheOps_length_le cap hcap ops init_raid_cache (by simp [init_raid_cache])
  · intro r k v hl hfull
    obtain ⟨c, dsk⟩ := r
    simp only at hl hfull
    match c, hl, hfull with
    | [], hl, hfull =>
        simp only [List.length_nil] at hfull
        omega
    | [e], hl, hfull =>
        simp only [List.length_cons, List.length_nil] at hfull
        omega
    | e₁ :: e₂ :: rest, hl, hfull =>
        refine ⟨e₁.1, e₁.2, e₂ :: rest, by simp, ?_, ?_⟩
        · unfold put_raid_cache
          rw [hl]
          show (if ((e₁ :: e₂ :: rest) : List (PhysKey × Nat)).length = 0 then
              (⟨[(k, v)], dsk⟩ : RaidState)
            else if ((e₁ :: e₂ :: rest) : List (PhysKey × Nat)).length = 1 then
              ⟨(e₁ :: e₂ :: rest) ++ [(k, v)], dsk⟩
            else insert_in_queue cap k v ⟨e₁ :: e₂ :: rest, dsk⟩).cache
            = (e₂ :: rest) ++ [(k, v)]
          rw [if_neg length_ne_zero_cons2, if_neg length_ne_one_cons2]
          unfold insert_in_queue
          have hlt : cap < ((e₁ :: e₂ :: rest) ++ [(k, v)]).length := by
            simp only [List.length_append, List.length_cons, List.length_nil] at hfull ⊢
            omega
          rw [if_pos hlt]
          rfl
        · unfold put_raid_cache
          rw [hl]
          rw [if_neg length_ne_zero_cons2, if_neg length_ne_one_cons2]
          unfold insert_in_queue
          have hlt : cap < ((e₁ :: e₂ :: rest) ++ [(k, v)]).length := by
            simp only [List.length_append, List.length_cons, List.length_nil] at hfull ⊢
            omega
          rw [if_pos hlt]
          show (if e₁.1 = e₁.1 then e₁.2 else dsk e₁.1) = e₁.2
          rw [if_pos rfl]

/-- C9, witness: the capacity bound applied to a concrete three-operation
run at the spec's cache size. -/
theorem cache_capacity_bound_witness :
    (2 ≤ TAGLINE_CACHE_SIZE) ∧
      (runCacheOps TAGLINE_CACHE_SIZE
          [CacheOp.put ⟨0, 0⟩ 5, CacheOp.put ⟨1, 0⟩ 6, CacheOp.get ⟨0, 0⟩]).cache.length ≤
        TAGLINE_CACHE_SIZE :=
  ⟨by decide,
    (cache_capacity_bound TAGLINE_CACHE_SIZE (by decide)).1
      [CacheOp.put ⟨0, 0⟩ 5, CacheOp.put ⟨1, 0⟩ 6, CacheOp.get ⟨0, 0⟩]⟩

/-! ## Tagline driver model (`tagline_driver.c`) -/

/-- One node of a tagline's block list (`struct block_node`): the primary
placement (`RAID_disk`, `RAID_block`) and the mirror (`backup_disk`,
`backup_block`).  The node's `block` number field is implicit here: blocks
are only ever appended at the current high-water mark, so a node's
position in its tagline's list is its block number. -/
structure Placement where
  RAID_disk : Nat
  RAID_block : Nat
  backup_disk : Nat
  backup_block : Nat
deriving DecidableEq, Repr

/-- The physical address of the primary copy. -/
def Placement.primaryKey (p : Placement) : PhysKey :=
  ⟨p.RAID_disk, p.RAID_block⟩

/-- The physical address of the mirror copy. -/
def Placement.backupKey (p : Placement) : PhysKey :=
  ⟨p.backup_disk, p.backup_block⟩

/-- The allocator cursor, the static variables `current_disk` and
`current_block`. -/
structure SchedState where
  current_disk : Nat
  current_block : Nat
deriving DecidableEq, Repr

/-- Allocator `RAID_scheduler`: hands out the cursor position and advances the
cursor.  The `primary_disk` argument is only consulted by a commented-out
early version and is ignored by the live code.  Only the first branch
(`current_block == RAID_DISKBLOCKS && current_disk == RAID_DISKS`) fails. -/
def RAID_scheduler (primary_disk : Int) (s : SchedState) : Option PhysKey × SchedState :=
  if s.current_block = RAID_DISKBLOCKS ∧ s.current_disk = RAID_DISKS then
    (none, s)
  else if s.current_block = RAID_DISKBLOCKS - 1 ∧ s.current_disk = RAID_DISKS then
    (some ⟨s.current_disk, s.current_block⟩, ⟨s.current_disk + 1, s.current_block + 1⟩)
  else if s.current_disk = RAID_DISKS - 1 then
    (some ⟨s.current_disk, s.current_block⟩,
      ⟨0, if s.current_block = RAID_DISKBLOCKS then 0 else s.current_block + 1⟩)
  else
    (some ⟨s.current_disk, s.current_block⟩, ⟨s.current_disk + 1, s.current_block⟩)

/-- The driver's global state: the tagline directory (the `head_tag`
linked list; tagline `i` is entry `i` and holds its blocks in order), the
cache in front of the RAID array, and the allocator cursor. -/
structure DriverState where
  taglines : List (List Placement)
  raid : RaidState
  sched : SchedState

/-- Initialisation `tagline_driver_init maxlines`: bus INIT, FORMAT of every disk (the
array comes up zeroed), `init_raid_cache`, and `maxlines` empty taglines
numbered from 0; the allocator cursor starts at `(0, 0)`. -/
def initState (maxlines : Nat) : DriverState :=
  ⟨List.replicate maxlines [], init_raid_cache, ⟨0, 0⟩⟩

/-- One-block `tagline_write` (the `blks <= 1` path).  A nonexistent tag
is only logged by the C code, after which `get_max_start_allowed`
dereferences a null pointer — modelled as failure without a state change.
With `bnum` equal to the high-water mark a fresh primary and mirror are
scheduled and both cache-put; with `bnum` below it the existing placement
is overwritten through two cache puts; with `bnum` above it the C code
logs an error but falls through both branches and returns 0, so the model
returns success with the state unchanged. -/
def tagline_write_one (cap : Nat) (s : DriverState) (tag bnum : Nat) (v : Nat) :
    Bool × DriverState :=
  match s.taglines.get? tag with
  | none => (false, s)
  | some blocks =>
      if bnum = blocks.length then
        match RAID_scheduler (-1) s.sched with
        | (none, sch₁) => (false, { s with sched := sch₁ })
        | (some pb, sch₁) =>
            let r₁ := put_raid_cache cap pb v s.raid
            let tl₁ := s.taglines.set tag (blocks ++ [⟨pb.disk, pb.block, 0, 0⟩])
            match RAID_scheduler (Int.ofNat pb.disk) sch₁ with
            | (none, sch₂) => (false, ⟨tl₁, r₁, sch₂⟩)
            | (some bb, sch₂) =>
                let r₂ := put_raid_cache cap bb v r₁
                let tl₂ :=
                  s.taglines.set tag (blocks ++ [⟨pb.disk, pb.block, bb.disk, bb.block⟩])
                (true, ⟨tl₂, r₂, sch₂⟩)
      else if bnum < blocks.length then
        match blocks.get? bnum with
        | none => (false, s)
        | some p =>
            let r₁ := put_raid_cache cap p.primaryKey v s.raid
            let r₂ := put_raid_cache cap p.backupKey v r₁
            (true, { s with raid := r₂ })
      else
        (true, s)

/-- The `blks > 1` write loop: one-block writes at `bnum + i` with the
`i`-th `RAID_BLOCK_SIZE` chunk of the caller's buffer, stopping at the
first failure. -/
def write_blocks (cap : Nat) (tag : Nat) :
    DriverState → Nat → List Nat → Bool × DriverState
  | s, _, [] => (true, s)
  | s, b, v :: rest =>
      match tagline_write_one cap s tag b v with
      | (true, s₁) => write_blocks cap tag s₁ (b + 1) rest
      | (false, s₁) => (false, s₁)

/-- Write `tagline_write`: requests with `blks > 1` loop over one-block writes;
`blks = 0` and `blks = 1` both take the single-block path using the first
buffer chunk. -/
def tagline_write (cap : Nat) (s : DriverState) (tag bnum blks : Nat) (buf : Nat → Nat) :
    Bool × DriverState :=
  if 1 < blks then write_blocks cap tag s bnum ((List.range blks).map buf)
  else tagline_write_one cap s tag bnum (buf 0)

/-- One-block `tagline_read` (the `blks <= 1` path): fails for a
nonexistent tag or an unallocated block number, consults the cache for the
primary address, and on a miss reads the primary from the bus and puts the
result into the cache. -/
def tagline_read_one (cap : Nat) (s : DriverState) (tag bnum : Nat) :
    Option Nat × DriverState :=
  match s.taglines.get? tag with
  | none => (none, s)
  | some blocks =>
      match blocks.get? bnum with
      | none => (none, s)
      | some p =>
          match get_raid_cache s.raid p.primaryKey with
          | some v => (some v, s)
          | none =>
              let v := s.raid.disk p.primaryKey
              (some v, { s with raid := put_raid_cache cap p.primaryKey v s.raid })

/-- The `blks > 1` read loop. -/
def read_blocks (cap : Nat) (tag : Nat) :
    DriverState → Nat → Nat → Option (List Nat) × DriverState
  | s, _, 0 => (some [], s)
  | s, b, n + 1 =>
      match tagline_read_one cap s tag b with
      | (none, s₁) => (none, s₁)
      | (some v, s₁) =>
          match read_blocks cap tag s₁ (b + 1) n with
          | (none, s₂) => (none, s₂)
          | (some vs, s₂) => (some (v :: vs), s₂)

/-- Read `tagline_read`: requests with `blks > 1` loop over one-block reads;
`blks = 0` and `blks = 1` both take the single-block path. -/
def tagline_read (cap : Nat) (s : DriverState) (tag bnum blks : Nat) :
    Option (List Nat) × DriverState :=
  if 1 < blks then read_blocks cap tag s bnum blks
  else
    match tagline_read_one cap s tag bnum with
    | (some v, s₁) => (some [v], s₁)
    | (none, s₁) => (none, s₁)

/-- C10: with `nblocks = 0` both `tagline_read` and `tagline_write` take
the same single-block path as `nblocks = 1` — the `blks > 1` test fails
for both — performing one block of work at `(tag, bnum)` with the first
`RAID_BLOCK_SIZE` bytes of the caller's buffer. -/
theorem zero_blocks_behaves_as_one (cap : Nat) (s : DriverState) (tag bnum : Nat)
    (buf : Nat → Nat) :
    tagline_write cap s tag bnum 0 buf = tagline_write cap s tag bnum 1 buf ∧
      tagline_read cap s tag bnum 0 = tagline_read cap s tag bnum 1 := by
  constructor <;> rfl

/-- C5: after `init(1)`, a one-block write at `bnum = 1` (one past the
high-water mark 0) returns success with the driver state unchanged: the C
code logs the hole error but does not return, then skips both the
new-block and overwrite branches and reaches the final `return 0`. -/
theorem hole_write_returns_success :
    tagline_write TAGLINE_CACHE_SIZE (initState 1) 0 1 1 (fun _ => 7) =
      (true, initState 1) := rfl

/-! ### Allocator cursor behaviour -/

/-- One allocation's effect on the cursor (the returned address is the
pre-advance cursor; the advance does not depend on the `primary_disk`
argument). -/
def schedStep (s : SchedState) : SchedState :=
  (RAID_scheduler (-1) s).2

theorem schedStep_iterate (n : Nat) (hn : n ≤ RAID_DISKS * RAID_DISKBLOCKS) :
    schedStep^[n] ⟨0, 0⟩ = ⟨n % RAID_DISKS, n / RAID_DISKS⟩ := by
  induction n with
  | zero => rfl
  | succ n ih =>
      have hn' : n ≤ RAID_DISKS * RAID_DISKBLOCKS := Nat.le_of_succ_le hn
      rw [Function.iterate_succ_apply', ih hn']
      simp only [RAID_DISKS, RAID_DISKBLOCKS] at hn ⊢
      simp only [schedStep, RAID_scheduler, RAID_DISKS, RAID_DISKBLOCKS]
      have hmod : n % 9 < 9 := Nat.mod_lt _ (by norm_num)
      split_ifs with h1 h2 h3 h4
      · exact absurd h1 (by omega)
      · exact absurd h2 (by omega)
      · exact absurd h4 (by omega)
      · simp only [SchedState.mk.injEq]
        omega
      · simp only [SchedState.mk.injEq]
        omega

/-- C6: the allocator never reports exhaustion.  After all
`RAID_DISKS * RAID_DISKBLOCKS` physical blocks have been handed out (two
per one-block write of a new logical block, so after
`RAID_DISKS * RAID_DISKBLOCKS / 2` such writes) the cursor stands at
`(0, RAID_DISKBLOCKS)`, and the next call still succeeds, returning the
out-of-range block number `RAID_DISKBLOCKS` instead of failing: the
failure branch requires `current_disk == RAID_DISKS`, which is
unreachable because the disk index wraps to 0 at `RAID_DISKS - 1`. -/
theorem allocator_never_reports_exhaustion :
    schedStep^[RAID_DISKS * RAID_DISKBLOCKS] ⟨0, 0⟩ = ⟨0, RAID_DISKBLOCKS⟩ ∧
      (RAID_scheduler (-1) ⟨0, RAID_DISKBLOCKS⟩).1 = some ⟨0, RAID_DISKBLOCKS⟩ ∧
      ¬(⟨0, RAID_DISKBLOCKS⟩ : PhysKey).block < RAID_DISKBLOCKS := by
  refine ⟨?_, by decide, by decide⟩
  rw [schedStep_iterate (RAID_DISKS * RAID_DISKBLOCKS) (Nat.le_refl _)]
  decide

/-- Any cursor with `current_disk < RAID_DISKS` (an invariant of every
reachable state) makes the scheduler succeed with the cursor position and
advance to a different disk still below `RAID_DISKS`. -/
theorem RAID_scheduler_spec (primary_disk : Int) (s : SchedState)
    (hd : s.current_disk < RAID_DISKS) :
    (RAID_scheduler primary_disk s).1 = some ⟨s.current_disk, s.current_block⟩ ∧
      (RAID_scheduler primary_disk s).2.current_disk < RAID_DISKS ∧
      (RAID_scheduler primary_disk s).2.current_disk ≠ s.current_disk := by
  obtain ⟨d, b⟩ := s
  simp only [RAID_DISKS] at hd
  simp only [RAID_scheduler, RAID_DISKS, RAID_DISKBLOCKS]
  split_ifs with h1 h2 h3 h4
  · exact absurd h1 (by omega)
  · exact absurd h2 (by omega)
  · exact ⟨rfl, by show (0 : Nat) < 9; omega, by show (0 : Nat) ≠ d; omega⟩
  · exact ⟨rfl, by show (0 : Nat) < 9; omega, by show (0 : Nat) ≠ d; omega⟩
  · exact ⟨rfl, by show d + 1 < 9; omega, by show d + 1 ≠ d; omega⟩

/-! ## Recovery engine (`raid_disk_signal`) -/

/-- Bus-visible actions of the recovery procedure: the STATUS poll, the
FORMAT of a failed disk, the READ of a surviving mirror on a cache miss,
and the rebuild `put_raid_cache` of a lost side (whose write-back reaches
the disk on eviction). -/
inductive BusEvent where
  | statusReq (disk : Nat)
  | formatReq (disk : Nat)
  | readReq (k : PhysKey)
  | recoverPut (k : PhysKey)
deriving DecidableEq, Repr

/-- The bus FORMAT of disk `d` blanks all of its blocks. -/
def format_disk (r : RaidState) (d : Nat) : RaidState :=
  { r with disk := fun k => if k.disk = d then 0 else r.disk k }

/-- Recovery of one placement for failed disk `d`: if the primary is on
`d`, obtain the mirror's bytes (cache first, bus READ on a miss) and put
them under the primary address; symmetrically if the mirror is on `d`;
otherwise the block is untouched. -/
def recover_block (cap : Nat) (d : Nat) (r : RaidState) (p : Placement) :
    RaidState × List BusEvent :=
  if p.RAID_disk = d then
    match get_raid_cache r p.backupKey with
    | some bv => (put_raid_cache cap p.primaryKey bv r, [BusEvent.recoverPut p.primaryKey])
    | none =>
        (put_raid_cache cap p.primaryKey (r.disk p.backupKey) r,
          [BusEvent.readReq p.backupKey, BusEvent.recoverPut p.primaryKey])
  else if p.backup_disk = d then
    match get_raid_cache r p.primaryKey with
    | some bv => (put_raid_cache cap p.backupKey bv r, [BusEvent.recoverPut p.backupKey])
    | none =>
        (put_raid_cache cap p.backupKey (r.disk p.primaryKey) r,
          [BusEvent.readReq p.primaryKey, BusEvent.recoverPut p.backupKey])
  else (r, [])

/-- The walk over every tagline's every block for failed disk `d`. -/
def recover_walk (cap : Nat) (d : Nat) :
    RaidState → List Placement → RaidState × List BusEvent
  | r, [] => (r, [])
  | r, p :: ps =>
      match recover_block cap d r p with
      | (r₁, evs₁) =>
          match recover_walk cap d r₁ ps with
          | (r₂, evs₂) => (r₂, evs₁ ++ evs₂)

/-- One iteration of `raid_disk_signal`'s disk loop: STATUS disk `d`; if
its response carries the failed sentinel (`failed d`), FORMAT `d` and
rebuild every placement touching it. -/
def signal_disk (cap : Nat) (failed : Nat → Bool) (ps : List Placement)
    (acc : RaidState × List BusEvent) (d : Nat) : RaidState × List BusEvent :=
  if failed d then
    match recover_walk cap d (format_disk acc.1 d) ps with
    | (r₂, evs) => (r₂, acc.2 ++ [BusEvent.statusReq d, BusEvent.formatReq d] ++ evs)
  else (acc.1, acc.2 ++ [BusEvent.statusReq d])

/-- Recovery `raid_disk_signal`: polls STATUS for disks `0 .. RAID_DISKS - 1` in
order and repairs each disk reported failed before moving to the next;
`failed d` stands for the STATUS response's blockid field equalling the
failed sentinel 2.  Returns the new driver state and the bus/rebuild event
trace. -/
def raid_disk_signal (cap : Nat) (failed : Nat → Bool) (s : DriverState) :
    DriverState × List BusEvent :=
  match (List.range RAID_DISKS).foldl (signal_disk cap failed s.taglines.flatten)
      (s.raid, []) with
  | (r, evs) => ({ s with raid := r }, evs)

/-! ## Driver operation sequences -/

/-- The public driver operations after `tagline_driver_init`. -/
inductive DriverOp where
  | write (tag bnum blks : Nat) (buf : Nat → Nat)
  | readOp (tag bnum blks : Nat)
  | signal (failed : Nat → Bool)

/-- State effect of one driver call. -/
def applyDriverOp (cap : Nat) (s : DriverState) : DriverOp → DriverState
  | .write t b n buf => (tagline_write cap s t b n buf).2
  | .readOp t b n => (tagline_read cap s t b n).2
  | .signal failed => (raid_disk_signal cap failed s).1

/-- Running a call sequence from `tagline_driver_init maxlines`. -/
def runDriver (cap maxlines : Nat) (ops : List DriverOp) : DriverState :=
  ops.foldl (applyDriverOp cap) (initState maxlines)

/-- Every placement in the directory mirrors onto a distinct disk. -/
def DirDisjoint (tls : List (List Placement)) : Prop :=
  ∀ blocks ∈ tls, ∀ p ∈ blocks, p.RAID_disk ≠ p.backup_disk

/-- Reachable-state invariant: the cursor disk is in range and the
directory is mirror-disjoint. -/
def DriverInv (s : DriverState) : Prop :=
  s.sched.current_disk < RAID_DISKS ∧ DirDisjoint s.taglines

theorem tagline_write_one_inv (cap : Nat) (s : DriverState) (tag bnum v : Nat)
    (h : DriverInv s) : DriverInv (tagline_write_one cap s tag bnum v).2 := by
  obtain ⟨hd, hdisj⟩ := h
  unfold tagline_write_one
  split
  · exact ⟨hd, hdisj⟩
  · rename_i blocks hget
    split
    · rename_i hb
      obtain ⟨hres1, hdisk1, hne1⟩ := RAID_scheduler_spec (-1) s.sched hd
      split
      · rename_i sch₁ hsch
        rw [hsch] at hres1
        simp at hres1
      · rename_i pb sch₁ hsch
        rw [hsch] at hres1 hdisk1 hne1
        simp only at hres1 hdisk1 hne1
        obtain ⟨hres2, hdisk2, hne2⟩ := RAID_scheduler_spec (Int.ofNat pb.disk) sch₁ hdisk1
        split
        · rename_i sch₂ hsch2
          rw [hsch2] at hres2
          simp at hres2
        · rename_i bb sch₂ hsch2
          rw [hsch2] at hres2 hdisk2 hne2
          simp only at hres2 hdisk2 hne2
          refine ⟨hdisk2, ?_⟩
          intro blocks' hmem p hp
          rcases List.mem_or_eq_of_mem_set hmem with hold | hnew
          · exact hdisj blocks' hold p hp
          · subst hnew
            rcases List.mem_append.1 hp with hold | hsingle
            · exact hdisj blocks (List.get?_mem hget) p hold
            · rcases List.mem_singleton.1 hsingle with rfl
              show pb.disk ≠ bb.disk
              have hpb : pb = ⟨s.sched.current_disk, s.sched.current_block⟩ :=
                Option.some.inj hres1
              have hbb : bb = ⟨sch₁.current_disk, sch₁.current_block⟩ :=
                Option.some.inj hres2
              rw [hpb, hbb]
              exact fun hcontra => hne1 hcontra.symm
    · split
      · split
        · exact ⟨hd, hdisj⟩
        · exact ⟨hd, hdisj⟩
      · exact ⟨hd, hdisj⟩

theorem write_blocks_inv (cap tag : Nat) :
    ∀ (vs : List Nat) (s : DriverState) (b : Nat), DriverInv s →
      DriverInv (write_blocks cap tag s b vs).2 := by
  intro vs
  induction vs with
  | nil => intro s b h; exact h
  | cons v rest ih =>
      intro s b h
      unfold write_blocks
      rcases hw : tagline_write_one cap s tag b v with ⟨ok, s₁⟩
      have h₁ : DriverInv s₁ := by
        have := tagline_write_one_inv cap s tag b v h
        rw [hw] at this
        exact this
      cases ok with
      | true => exact ih s₁ (b + 1) h₁
      | false => exact h₁

theorem tagline_write_inv (cap : Nat) (s : DriverState) (tag bnum blks : Nat)
    (buf : Nat → Nat) (h : DriverInv s) :
    DriverInv (tagline_write cap s tag bnum blks buf).2 := by
  unfold tagline_write
  by_cases hb : 1 < blks
  · rw [if_pos hb]
    exact write_blocks_inv cap tag _ s bnum h
  · rw [if_neg hb]
    exact tagline_write_one_inv cap s tag bnum (buf 0) h

theorem tagline_read_one_frame (cap : Nat) (s : DriverState) (tag bnum : Nat) :
    (tagline_read_one cap s tag bnum).2.taglines = s.taglines ∧
      (tagline_read_one cap s tag bnum).2.sched = s.sched := by
  unfold tagline_read_one
  split
  · exact ⟨rfl, rfl⟩
  · split
    · exact ⟨rfl, rfl⟩
    · split
      · exact ⟨rfl, rfl⟩
      · exact ⟨rfl, rfl⟩

theorem read_blocks_frame (cap tag : Nat) :
    ∀ (n : Nat) (s : DriverState) (b : Nat),
      (read_blocks cap tag s b n).2.taglines = s.taglines ∧
        (read_blocks cap tag s b n).2.sched = s.sched := by
  intro n
  induction n with
  | zero => intro s b; exact ⟨rfl, rfl⟩
  | succ n ih =>
      intro s b
      unfold read_blocks
      split
      · rename_i s₁ heq
        have h₁ := tagline_read_one_frame cap s tag b
        rw [heq] at h₁
        exact h₁
      · rename_i v s₁ heq
        have h₁ := tagline_read_one_frame cap s tag b
        rw [heq] at h₁
        split
        · rename_i s₂ heq2
          have h₂ := ih s₁ (b + 1)
          rw [heq2] at h₂
          exact ⟨h₂.1.trans h₁.1, h₂.2.trans h₁.2⟩
        · rename_i vs s₂ heq2
          have h₂ := ih s₁ (b + 1)
          rw [heq2] at h₂
          exact ⟨h₂.1.trans h₁.1, h₂.2.trans h₁.2⟩

theorem tagline_read_frame (cap : Nat) (s : DriverState) (tag bnum blks : Nat) :
    (tagline_read cap s tag bnum blks).2.taglines = s.taglines ∧
      (tagline_read cap s tag bnum blks).2.sched = s.sched := by
  unfold tagline_read
  by_cases hb : 1 < blks
  · rw [if_pos hb]
    exact read_blocks_frame cap tag blks s bnum
  · rw [if_neg hb]
    have h₁ := tagline_read_one_frame cap s tag bnum
    rcases hr : tagline_read_one cap s tag bnum with ⟨o, s₁⟩
    rw [hr] at h₁
    cases o with
    | none => exact h₁
    | some v => exact h₁

theorem raid_disk_signal_frame (cap : Nat) (failed : Nat → Bool) (s : DriverState) :
    (raid_disk_signal cap failed s).1.taglines = s.taglines ∧
      (raid_disk_signal cap failed s).1.sched = s.sched := by
  unfold raid_disk_signal
  rcases (List.range RAID_DISKS).foldl (signal_disk cap failed s.taglines.flatten)
      (s.raid, []) with ⟨r, evs⟩
  exact ⟨rfl, rfl⟩

theorem runDriver_inv (cap maxlines : Nat) (ops : List DriverOp) :
    DriverInv (runDriver cap maxlines ops) := by
  have hinit : DriverInv (initState maxlines) := by
    refine ⟨by simp [initState, RAID_DISKS], ?_⟩
    intro blocks hmem p hp
    rcases List.eq_of_mem_replicate hmem with rfl
    simp at hp
  unfold runDriver
  generalize hstart : initState maxlines = s₀ at hinit
  clear hstart
  induction ops generalizing s₀ with
  | nil => exact hinit
  | cons op rest ih =>
      refine ih _ ?_
      cases op with
      | write t b n buf => exact tagline_write_inv cap s₀ t b n buf hinit
      | readOp t b n =>
          obtain ⟨h1, h2⟩ := tagline_read_frame cap s₀ t b n
          exact ⟨h2 ▸ hinit.1, h1 ▸ hinit.2⟩
      | signal failed =>
          obtain ⟨h1, h2⟩ := raid_disk_signal_frame cap failed s₀
          exact ⟨h2 ▸ hinit.1, h1 ▸ hinit.2⟩

/-- C4: in every driver state reachable from `tagline_driver_init` by any
sequence of writes, reads and disk signals, every placement recorded in
the tagline directory has its mirror on a different disk than its primary:
the mirror is allocated by the immediately following scheduler call, and
the cursor always advances to a different disk. -/
theorem mirror_disjointness (cap maxlines : Nat) (ops : List DriverOp)
    (t : Nat) (blocks : List Placement) (p : Placement)
    (hb : (runDriver cap maxlines ops).taglines.get? t = some blocks)
    (hp : p ∈ blocks) : p.RAID_disk ≠ p.backup_disk :=
  (runDriver_inv cap maxlines ops).2 blocks (List.get?_mem hb) p hp

/-- C4, witness: the first write of tagline 0 records placement
`(0,0) / (1,0)`, whose disks differ. -/
theorem mirror_disjointness_witness :
    (runDriver TAGLINE_CACHE_SIZE 1 [DriverOp.write 0 0 1 (fun _ => 5)]).taglines.get? 0 =
        some [⟨0, 0, 1, 0⟩] ∧
      (Placement.mk 0 0 1 0).RAID_disk ≠ (Placement.mk 0 0 1 0).backup_disk :=
  ⟨rfl,
    mirror_disjointness TAGLINE_CACHE_SIZE 1 [DriverOp.write 0 0 1 (fun _ => 5)] 0
      [⟨0, 0, 1, 0⟩] ⟨0, 0, 1, 0⟩ rfl (List.mem_singleton.2 rfl)⟩

/-! ## Read-after-write -/

/-- Cache operations lifted to the driver state (they touch only the
cache and, through eviction write-backs, the array). -/
def applyCacheOpD (cap : Nat) (s : DriverState) (op : CacheOp) : DriverState :=
  { s with raid := applyCacheOp cap s.raid op }

theorem cacheWF_applyCacheOp (cap : Nat) (r : RaidState) (op : CacheOp)
    (h : cacheWF r) : cacheWF (applyCacheOp cap r op) := by
  cases op with
  | put k v => exact cacheWF_put cap k v r h
  | get k => exact h

theorem value_of_applyCacheOp_other (cap : Nat) (k : PhysKey) (r : RaidState) (op : CacheOp)
    (h : cacheWF r) (hne : op.key ≠ k) :
    value_of (applyCacheOp cap r op) k = value_of r k := by
  cases op with
  | put k' v => exact value_of_put_other cap k k' v r h (fun hk => hne hk.symm)
  | get k' => rfl

theorem cacheWF_foldl (cap : Nat) (ops : List CacheOp) :
    ∀ r : RaidState, cacheWF r → cacheWF (ops.foldl (applyCacheOp cap) r) := by
  induction ops with
  | nil => intro r h; exact h
  | cons op rest ih => intro r h; exact ih _ (cacheWF_applyCacheOp cap r op h)

theorem value_of_foldl_other (cap : Nat) (k : PhysKey) (ops : List CacheOp)
    (hops : ∀ op ∈ ops, op.key ≠ k) :
    ∀ r : RaidState, cacheWF r →
      value_of (ops.foldl (applyCacheOp cap) r) k = value_of r k := by
  induction ops with
  | nil => intro r h; rfl
  | cons op rest ih =>
      intro r h
      have h₁ := value_of_applyCacheOp_other cap k r op h (hops op (List.mem_cons_self op rest))
      have h₂ := ih (fun o ho => hops o (List.mem_cons_of_mem op ho)) _
        (cacheWF_applyCacheOp cap r op h)
      exact h₂.trans h₁

theorem foldl_cacheOpD_frame (cap : Nat) (ops : List CacheOp) :
    ∀ s : DriverState,
      (ops.foldl (applyCacheOpD cap) s).taglines = s.taglines ∧
        (ops.foldl (applyCacheOpD cap) s).sched = s.sched ∧
        (ops.foldl (applyCacheOpD cap) s).raid = ops.foldl (applyCacheOp cap) s.raid := by
  induction ops with
  | nil => intro s; exact ⟨rfl, rfl, rfl⟩
  | cons op rest ih =>
      intro s
      obtain ⟨h1, h2, h3⟩ := ih (applyCacheOpD cap s op)
      exact ⟨h1, h2, h3⟩

/-- Distinct mirror disks give distinct physical keys. -/
theorem primaryKey_ne_backupKey {p : Placement} (h : p.RAID_disk ≠ p.backup_disk) :
    p.primaryKey ≠ p.backupKey :=
  fun hk => h (congrArg PhysKey.disk hk)

/-- Characterisation of a one-block overwrite (`bnum` already allocated):
the placement's primary and then its mirror are cache-put with the new
bytes, and nothing else changes. -/
theorem tagline_write_one_overwrite (cap : Nat) (s : DriverState) (tag bnum v : Nat)
    (blocks : List Placement) (p : Placement)
    (hget : s.taglines.get? tag = some blocks) (hb : blocks.get? bnum = some p) :
    tagline_write_one cap s tag bnum v =
      (true, { s with raid :=
        put_raid_cache cap p.backupKey v (put_raid_cache cap p.primaryKey v s.raid) }) := by
  have hlt : bnum < blocks.length := by
    obtain ⟨h, _⟩ := List.get?_eq_some.1 hb
    exact h
  have hne : bnum ≠ blocks.length := Nat.ne_of_lt hlt
  unfold tagline_write_one
  split
  · rename_i heq
    rw [hget] at heq
    simp at heq
  · rename_i blocks' hget'
    rw [hget] at hget'
    obtain rfl : blocks = blocks' := Option.some.inj hget'
    rw [if_neg hne, if_pos hlt]
    split
    · rename_i heq2
      rw [hb] at heq2
      simp at heq2
    · rename_i p' hp'
      rw [hb] at hp'
      obtain rfl : p = p' := Option.some.inj hp'
      rfl

/-- A one-block read of an allocated block returns the authoritative
bytes of its primary address: the cached buffer on a hit, the array
contents via a bus READ on a miss. -/
theorem tagline_read_one_value (cap : Nat) (s : DriverState) (tag bnum : Nat)
    (blocks : List Placement) (p : Placement)
    (hget : s.taglines.get? tag = some blocks) (hb : blocks.get? bnum = some p) :
    (tagline_read_one cap s tag bnum).1 = some (value_of s.raid p.primaryKey) := by
  unfold tagline_read_one
  split
  · rename_i heq
    rw [hget] at heq
    simp at heq
  · rename_i blocks' hget'
    rw [hget] at hget'
    obtain rfl : blocks = blocks' := Option.some.inj hget'
    split
    · rename_i heq2
      rw [hb] at heq2
      simp at heq2
    · rename_i p' hp'
      rw [hb] at hp'
      obtain rfl : p = p' := Option.some.inj hp'
      split
      · rename_i v hv
        have hv' : lookupKey s.raid.cache p.primaryKey = some v := hv
        show some v = some (value_of s.raid p.primaryKey)
        unfold value_of
        rw [hv']
      · rename_i hv
        have hv' : lookupKey s.raid.cache p.primaryKey = none := hv
        show some (s.raid.disk p.primaryKey) = some (value_of s.raid p.primaryKey)
        unfold value_of
        rw [hv']

/-- C1: read-after-write.  If tagline `tag` exists and block `bnum` is
already allocated with a mirror-disjoint placement, then after
`tagline_write (tag, bnum, 1, X)` succeeds, any sequence of cache
operations (puts with their evictions, gets) on keys other than the
placement's primary and mirror addresses leaves a subsequent
`tagline_read (tag, bnum, 1)` returning exactly the written bytes. -/
theorem read_after_write (cap : Nat) (s : DriverState) (tag bnum : Nat) (X : Nat → Nat)
    (ops : List CacheOp) (blocks : List Placement) (p : Placement)
    (hget : s.taglines.get? tag = some blocks)
    (hb : blocks.get? bnum = some p)
    (hdisj : p.RAID_disk ≠ p.backup_disk)
    (hwf : cacheWF s.raid)
    (hops : ∀ op ∈ ops, op.key ≠ p.primaryKey ∧ op.key ≠ p.backupKey) :
    (tagline_write cap s tag bnum 1 X).1 = true ∧
      (tagline_read cap
          (ops.foldl (applyCacheOpD cap) (tagline_write cap s tag bnum 1 X).2)
          tag bnum 1).1 = some [X 0] := by
  have hkne : p.primaryKey ≠ p.backupKey := primaryKey_ne_backupKey hdisj
  have heqw := tagline_write_one_overwrite cap s tag bnum (X 0) blocks p hget hb
  have hwrap : tagline_write cap s tag bnum 1 X = tagline_write_one cap s tag bnum (X 0) := rfl
  rw [hwrap, heqw]
  refine ⟨rfl, ?_⟩
  have hwf₁ : cacheWF (put_raid_cache cap p.primaryKey (X 0) s.raid) :=
    cacheWF_put cap p.primaryKey (X 0) s.raid hwf
  have hwf₂ : cacheWF (put_raid_cache cap p.backupKey (X 0)
      (put_raid_cache cap p.primaryKey (X 0) s.raid)) :=
    cacheWF_put cap p.backupKey (X 0) _ hwf₁
  have hv₂ : value_of (put_raid_cache cap p.backupKey (X 0)
      (put_raid_cache cap p.primaryKey (X 0) s.raid)) p.primaryKey = X 0 := by
    rw [value_of_put_other cap p.primaryKey p.backupKey (X 0) _ hwf₁ hkne]
    exact value_of_put_self cap p.primaryKey (X 0) s.raid hwf
  show (tagline_read cap
      (ops.foldl (applyCacheOpD cap)
        (DriverState.mk s.taglines
          (put_raid_cache cap p.backupKey (X 0) (put_raid_cache cap p.primaryKey (X 0) s.raid))
          s.sched))
      tag bnum 1).1 = some [X 0]
  obtain ⟨hTL, hSC, hRA⟩ := foldl_cacheOpD_frame cap ops
    (DriverState.mk s.taglines
      (put_raid_cache cap p.backupKey (X 0) (put_raid_cache cap p.primaryKey (X 0) s.raid))
      s.sched)
  have hvfold : value_of
      (ops.foldl (applyCacheOpD cap)
        (DriverState.mk s.taglines
          (put_raid_cache cap p.backupKey (X 0) (put_raid_cache cap p.primaryKey (X 0) s.raid))
          s.sched)).raid p.primaryKey = X 0 := by
    rw [hRA]
    rw [value_of_foldl_other cap p.primaryKey ops (fun op hop => (hops op hop).1) _ hwf₂]
    exact hv₂
  have hget₂ : (ops.foldl (applyCacheOpD cap)
      (DriverState.mk s.taglines
        (put_raid_cache cap p.backupKey (X 0) (put_raid_cache cap p.primaryKey (X 0) s.raid))
        s.sched)).taglines.get? tag = some blocks := by
    rw [hTL]
    exact hget
  have hread := tagline_read_one_value cap
    (ops.foldl (applyCacheOpD cap)
      (DriverState.mk s.taglines
        (put_raid_cache cap p.backupKey (X 0) (put_raid_cache cap p.primaryKey (X 0) s.raid))
        s.sched)) tag bnum blocks p hget₂ hb
  rw [hvfold] at hread
  unfold tagline_read
  rw [if_neg (by omega : ¬(1 : Nat) < 1)]
  split
  · rename_i v s₃ heq
    rw [heq] at hread
    simp only at hread
    rw [Option.some.inj hread]
  · rename_i s₃ heq
    rw [heq] at hread
    simp at hread

/-! ## Recovery soundness -/

/-- All physical side addresses recorded in a placement list. -/
def sidesOf : List Placement → List PhysKey
  | [] => []
  | p :: ps => p.primaryKey :: p.backupKey :: sidesOf ps

theorem mem_sidesOf {ps : List Placement} {k : PhysKey} :
    k ∈ sidesOf ps ↔ ∃ p ∈ ps, k = p.primaryKey ∨ k = p.backupKey := by
  induction ps with
  | nil => simp [sidesOf]
  | cons p rest ih =>
      simp only [sidesOf, List.mem_cons, ih]
      constructor
      · rintro (h | h | ⟨q, hq, hk⟩)
        · exact ⟨p, Or.inl rfl, Or.inl h⟩
        · exact ⟨p, Or.inl rfl, Or.inr h⟩
        · exact ⟨q, Or.inr hq, hk⟩
      · rintro ⟨q, hq | hq, hk⟩
        · subst hq
          rcases hk with hk | hk
          · exact Or.inl hk
          · exact Or.inr (Or.inl hk)
        · exact Or.inr (Or.inr ⟨q, hq, hk⟩)

/-- The sides of a placement that are not on the failed disk still hold
the placement's authoritative bytes. -/
def healthyGood (fd : Nat) (V : Placement → Nat) (r : RaidState) (p : Placement) : Prop :=
  (p.RAID_disk ≠ fd → value_of r p.primaryKey = V p) ∧
    (p.backup_disk ≠ fd → value_of r p.backupKey = V p)

/-- Both sides of a placement hold the placement's authoritative bytes. -/
def allGood (V : Placement → Nat) (r : RaidState) (p : Placement) : Prop :=
  value_of r p.primaryKey = V p ∧ value_of r p.backupKey = V p

theorem cacheWF_format (r : RaidState) (d : Nat) : cacheWF (format_disk r d) ↔ cacheWF r :=
  Iff.rfl

theorem value_of_format_other (r : RaidState) (d : Nat) (k : PhysKey) (hk : k.disk ≠ d) :
    value_of (format_disk r d) k = value_of r k := by
  unfold value_of format_disk
  cases lookupKey r.cache k with
  | some v => rfl
  | none => simp [hk]

/-- The state effect of recovering one placement: the lost side (if any)
receives the current authoritative bytes of the surviving side. -/
theorem recover_block_raid (cap d : Nat) (r : RaidState) (p : Placement) :
    (recover_block cap d r p).1 =
      if p.RAID_disk = d then put_raid_cache cap p.primaryKey (value_of r p.backupKey) r
      else if p.backup_disk = d then put_raid_cache cap p.backupKey (value_of r p.primaryKey) r
      else r := by
  unfold recover_block
  by_cases h1 : p.RAID_disk = d
  · simp only [if_pos h1]
    cases hl : get_raid_cache r p.backupKey with
    | some bv =>
        have hval : value_of r p.backupKey = bv := by
          unfold value_of
          rw [show lookupKey r.cache p.backupKey = some bv from hl]
        simp only [hl, hval]
    | none =>
        have hval : value_of r p.backupKey = r.disk p.backupKey := by
          unfold value_of
          rw [show lookupKey r.cache p.backupKey = none from hl]
        simp only [hl, hval]
  · simp only [if_neg h1]
    by_cases h2 : p.backup_disk = d
    · simp only [if_pos h2]
      cases hl : get_raid_cache r p.primaryKey with
      | some bv =>
          have hval : value_of r p.primaryKey = bv := by
            unfold value_of
            rw [show lookupKey r.cache p.primaryKey = some bv from hl]
          simp only [hl, hval]
      | none =>
          have hval : value_of r p.primaryKey = r.disk p.primaryKey := by
            unfold value_of
            rw [show lookupKey r.cache p.primaryKey = none from hl]
          simp only [hl, hval]
    · simp only [if_neg h2]

theorem recover_block_WF (cap d : Nat) (r : RaidState) (p : Placement)
    (h : cacheWF r) : cacheWF (recover_block cap d r p).1 := by
  rw [recover_block_raid]
  split
  · exact cacheWF_put _ _ _ _ h
  · split
    · exact cacheWF_put _ _ _ _ h
    · exact h

theorem recover_walk_cons_raid (cap d : Nat) (r : RaidState) (p : Placement)
    (ps : List Placement) :
    (recover_walk cap d r (p :: ps)).1 =
      (recover_walk cap d (recover_block cap d r p).1 ps).1 := by
  simp only [recover_walk]

theorem recover_walk_WF (cap d : Nat) :
    ∀ (ps : List Placement) (r : RaidState), cacheWF r →
      cacheWF (recover_walk cap d r ps).1 := by
  intro ps
  induction ps with
  | nil => intro r h; exact h
  | cons p rest ih =>
      intro r h
      rw [recover_walk_cons_raid]
      exact ih _ (recover_block_WF cap d r p h)

theorem recover_walk_preserves (cap d : Nat) (k : PhysKey) :
    ∀ (ps : List Placement) (r : RaidState), cacheWF r →
      (∀ p ∈ ps, p.primaryKey ≠ k ∧ p.backupKey ≠ k) →
      value_of (recover_walk cap d r ps).1 k = value_of r k := by
  intro ps
  induction ps with
  | nil => intro r h hk; rfl
  | cons p rest ih =>
      intro r h hk
      rw [recover_walk_cons_raid]
      have hstep : value_of (recover_block cap d r p).1 k = value_of r k := by
        rw [recover_block_raid]
        split
        · exact value_of_put_other cap k p.primaryKey _ r h
            (fun hc => (hk p (List.mem_cons_self p rest)).1 hc.symm)
        · split
          · exact value_of_put_other cap k p.backupKey _ r h
              (fun hc => (hk p (List.mem_cons_self p rest)).2 hc.symm)
          · rfl
      rw [ih _ (recover_block_WF cap d r p h)
        (fun q hq => hk q (List.mem_cons_of_mem p hq))]
      exact hstep

theorem recover_walk_restores (cap fd : Nat) (V : Placement → Nat) :
    ∀ (ps : List Placement) (r : RaidState), cacheWF r →
      (sidesOf ps).Nodup →
      (∀ p ∈ ps, p.RAID_disk ≠ p.backup_disk) →
      (∀ p ∈ ps, healthyGood fd V r p) →
      ∀ p ∈ ps, allGood V (recover_walk cap fd r ps).1 p := by
  intro ps
  induction ps with
  | nil => intro r hwf hnd hdisj hval p hp; simp at hp
  | cons p₀ rest ih =>
      intro r hwf hnd hdisj hval q hq
      simp only [sidesOf, List.nodup_cons, List.mem_cons, not_or] at hnd
      obtain ⟨⟨hpkbk, hp₀nmem⟩, hb₀nmem, hndrest⟩ := hnd
      have hdisj₀ : p₀.RAID_disk ≠ p₀.backup_disk :=
        hdisj p₀ (List.mem_cons_self p₀ rest)
      have hkne₀ : p₀.primaryKey ≠ p₀.backupKey := primaryKey_ne_backupKey hdisj₀
      have hval₀ := hval p₀ (List.mem_cons_self p₀ rest)
      rw [recover_walk_cons_raid]
      have hWF₁ : cacheWF (recover_block cap fd r p₀).1 := recover_block_WF cap fd r p₀ hwf
      have hpreserve : ∀ k : PhysKey, k ≠ p₀.primaryKey → k ≠ p₀.backupKey →
          value_of (recover_block cap fd r p₀).1 k = value_of r k := by
        intro k hk1 hk2
        rw [recover_block_raid]
        split
        · exact value_of_put_other cap k p₀.primaryKey _ r hwf hk1
        · split
          · exact value_of_put_other cap k p₀.backupKey _ r hwf hk2
          · rfl
      have hgood₀ : allGood V (recover_block cap fd r p₀).1 p₀ := by
        rw [recover_block_raid]
        by_cases h1 : p₀.RAID_disk = fd
        · rw [if_pos h1]
          have hbackup : p₀.backup_disk ≠ fd := fun hc => hdisj₀ (h1.trans hc.symm)
          have halive : value_of r p₀.backupKey = V p₀ := hval₀.2 hbackup
          refine ⟨?_, ?_⟩
          · rw [halive]
            exact value_of_put_self cap p₀.primaryKey _ r hwf
          · rw [value_of_put_other cap p₀.backupKey p₀.primaryKey _ r hwf hkne₀.symm]
            exact halive
        · rw [if_neg h1]
          have hprim : value_of r p₀.primaryKey = V p₀ := hval₀.1 h1
          by_cases h2 : p₀.backup_disk = fd
          · rw [if_pos h2]
            refine ⟨?_, ?_⟩
            · rw [value_of_put_other cap p₀.primaryKey p₀.backupKey _ r hwf hkne₀]
              exact hprim
            · rw [hprim]
              exact value_of_put_self cap p₀.backupKey _ r hwf
          · rw [if_neg h2]
            exact ⟨hprim, hval₀.2 h2⟩
      rcases List.mem_cons.1 hq with rfl | hqrest
      · -- the placement just recovered: its values survive the rest of the walk
        have hp₀p : ∀ q' ∈ rest, q'.primaryKey ≠ q.primaryKey ∧ q'.backupKey ≠ q.primaryKey := by
          intro q' hq'
          constructor
          · exact fun hc => hp₀nmem (hc ▸ mem_sidesOf.2 ⟨q', hq', Or.inl rfl⟩)
          · exact fun hc => hp₀nmem (hc ▸ mem_sidesOf.2 ⟨q', hq', Or.inr rfl⟩)
        have hp₀b : ∀ q' ∈ rest, q'.primaryKey ≠ q.backupKey ∧ q'.backupKey ≠ q.backupKey := by
          intro q' hq'
          constructor
          · exact fun hc => hb₀nmem (hc ▸ mem_sidesOf.2 ⟨q', hq', Or.inl rfl⟩)
          · exact fun hc => hb₀nmem (hc ▸ mem_sidesOf.2 ⟨q', hq', Or.inr rfl⟩)
        refine ⟨?_, ?_⟩
        · rw [recover_walk_preserves cap fd q.primaryKey rest _ hWF₁ hp₀p]
          exact hgood₀.1
        · rw [recover_walk_preserves cap fd q.backupKey rest _ hWF₁ hp₀b]
          exact hgood₀.2
      · -- a later placement: its healthy sides survived recovering p₀
        refine ih _ hWF₁ hndrest
          (fun q' hq' => hdisj q' (List.mem_cons_of_mem p₀ hq')) ?_ q hqrest
        intro q' hq'
        have hval' := hval q' (List.mem_cons_of_mem p₀ hq')
        have hne1 : q'.primaryKey ≠ p₀.primaryKey :=
          fun hc => hp₀nmem (hc ▸ mem_sidesOf.2 ⟨q', hq', Or.inl rfl⟩)
        have hne2 : q'.primaryKey ≠ p₀.backupKey :=
          fun hc => hb₀nmem (hc ▸ mem_sidesOf.2 ⟨q', hq', Or.inl rfl⟩)
        have hne3 : q'.backupKey ≠ p₀.primaryKey :=
          fun hc => hp₀nmem (hc ▸ mem_sidesOf.2 ⟨q', hq', Or.inr rfl⟩)
        have hne4 : q'.backupKey ≠ p₀.backupKey :=
          fun hc => hb₀nmem (hc ▸ mem_sidesOf.2 ⟨q', hq', Or.inr rfl⟩)
        constructor
        · intro hq'h
          rw [hpreserve q'.primaryKey hne1 hne2]
          exact hval'.1 hq'h
        · intro hq'h
          rw [hpreserve q'.backupKey hne3 hne4]
          exact hval'.2 hq'h

theorem foldl_signal_raid (cap fd : Nat) (ps : List Placement) :
    ∀ (ds : List Nat) (acc : RaidState × List BusEvent), ds.Nodup →
      (ds.foldl (signal_disk cap (fun d => d == fd) ps) acc).1 =
        if fd ∈ ds then (recover_walk cap fd (format_disk acc.1 fd) ps).1 else acc.1 := by
  intro ds
  induction ds with
  | nil => intro acc h; simp
  | cons d rest ih =>
      intro acc hnd
      rw [List.foldl_cons]
      simp only [List.nodup_cons] at hnd
      by_cases hd : d = fd
      · subst hd
        have hsig : (signal_disk cap (fun x => x == d) ps acc d).1 =
            (recover_walk cap d (format_disk acc.1 d) ps).1 := by
          unfold signal_disk
          rw [if_pos (by simp)]
        rw [ih _ hnd.2, if_neg hnd.1, hsig, if_pos (List.mem_cons_self d rest)]
      · have hsig : (signal_disk cap (fun x => x == fd) ps acc d).1 = acc.1 := by
          unfold signal_disk
          rw [if_neg (by simp [hd])]
        rw [ih _ hnd.2, hsig]
        by_cases hmem : fd ∈ rest
        · rw [if_pos hmem, if_pos (List.mem_cons_of_mem d hmem)]
        · rw [if_neg hmem,
            if_neg (by simp only [List.mem_cons, not_or]; exact ⟨fun hc => hd hc.symm, hmem⟩)]

/-- The state reached by `raid_disk_signal` with exactly disk `fd`
reported failed: the directory walk over the freshly formatted array. -/
theorem raid_disk_signal_raid (cap fd : Nat) (s : DriverState) (hfd : fd < RAID_DISKS) :
    (raid_disk_signal cap (fun d => d == fd) s).1.raid =
      (recover_walk cap fd (format_disk s.raid fd) s.taglines.flatten).1 := by
  unfold raid_disk_signal
  have h := foldl_signal_raid cap fd s.taglines.flatten (List.range RAID_DISKS)
    (s.raid, []) (List.nodup_range RAID_DISKS)
  rw [if_pos (List.mem_range.2 hfd)] at h
  rcases hfold : (List.range RAID_DISKS).foldl
      (signal_disk cap (fun d => d == fd) s.taglines.flatten) (s.raid, []) with ⟨r, evs⟩
  rw [hfold] at h
  exact h

/-- C2: recovery soundness.  With exactly disk `fd` reported failed by
STATUS, a well-formed mirror-disjoint directory whose recorded sides are
pairwise distinct, and a pre-signal state in which every side not on `fd`
still holds its placement's last-written bytes `V p` (the sides on `fd`
may hold anything — the disk failed), `raid_disk_signal` restores every
placement, so a subsequent one-block read of any logical block whose
primary or mirror was on `fd` returns its last-written bytes. -/
theorem recovery_soundness (cap fd : Nat) (s : DriverState) (V : Placement → Nat)
    (tag bnum : Nat) (blocks : List Placement) (p : Placement)
    (hfd : fd < RAID_DISKS)
    (hwf : cacheWF s.raid)
    (hnodup : (sidesOf s.taglines.flatten).Nodup)
    (hdisj : ∀ q ∈ s.taglines.flatten, q.RAID_disk ≠ q.backup_disk)
    (hval : ∀ q ∈ s.taglines.flatten, healthyGood fd V s.raid q)
    (hget : s.taglines.get? tag = some blocks)
    (hb : blocks.get? bnum = some p)
    (haffected : p.RAID_disk = fd ∨ p.backup_disk = fd) :
    (tagline_read cap (raid_disk_signal cap (fun d => d == fd) s).1 tag bnum 1).1
      = some [V p] := by
  have hpmem : p ∈ s.taglines.flatten :=
    List.mem_flatten_of_mem (List.get?_mem hget) (List.get?_mem hb)
  -- the walk restores both sides of every placement
  have hvalf : ∀ q ∈ s.taglines.flatten, healthyGood fd V (format_disk s.raid fd) q := by
    intro q hq
    obtain ⟨h1, h2⟩ := hval q hq
    constructor
    · intro hh
      rw [value_of_format_other s.raid fd q.primaryKey hh]
      exact h1 hh
    · intro hh
      rw [value_of_format_other s.raid fd q.backupKey hh]
      exact h2 hh
  have hrestore := recover_walk_restores cap fd V s.taglines.flatten
    (format_disk s.raid fd) hwf hnodup hdisj hvalf p hpmem
  -- the signalled state
  obtain ⟨hTL, _⟩ := raid_disk_signal_frame cap (fun d => d == fd) s
  have hraid := raid_disk_signal_raid cap fd s hfd
  have hget' : (raid_disk_signal cap (fun d => d == fd) s).1.taglines.get? tag = some blocks := by
    rw [hTL]
    exact hget
  have hread := tagline_read_one_value cap (raid_disk_signal cap (fun d => d == fd) s).1
    tag bnum blocks p hget' hb
  rw [hraid] at hread
  rw [hrestore.1] at hread
  unfold tagline_read
  rw [if_neg (by omega : ¬(1 : Nat) < 1)]
  split
  · rename_i v s₃ heq
    rw [heq] at hread
    simp only at hread
    rw [Option.some.inj hread]
  · rename_i s₃ heq
    rw [heq] at hread
    simp at hread

/-- Concrete state for the read-after-write witness: one tagline holding
one placement `(0,0)/(1,0)`, an empty cache, a zeroed array. -/
def c1state : DriverState :=
  ⟨[[⟨0, 0, 1, 0⟩]], ⟨[], fun _ => 0⟩, ⟨2, 0⟩⟩

/-- C1, witness: write 7, put an unrelated block, read 7 back. -/
theorem read_after_write_witness :
    (Placement.mk 0 0 1 0).RAID_disk ≠ (Placement.mk 0 0 1 0).backup_disk ∧
      (tagline_write TAGLINE_CACHE_SIZE c1state 0 0 1 (fun _ => 7)).1 = true ∧
        (tagline_read TAGLINE_CACHE_SIZE
            ([CacheOp.put ⟨3, 3⟩ 9].foldl (applyCacheOpD TAGLINE_CACHE_SIZE)
              (tagline_write TAGLINE_CACHE_SIZE c1state 0 0 1 (fun _ => 7)).2)
            0 0 1).1 = some [7] :=
  ⟨by decide,
    read_after_write TAGLINE_CACHE_SIZE c1state 0 0 (fun _ => 7) [CacheOp.put ⟨3, 3⟩ 9]
      [⟨0, 0, 1, 0⟩] ⟨0, 0, 1, 0⟩ rfl rfl (by decide) (by unfold cacheWF; decide)
      (by decide)⟩

/-- Concrete state for the recovery witness: one placement `(0,0)/(1,0)`
whose last write 42 is still cached under the mirror `(1,0)`; disk 0 is
the failed disk, so the primary's array contents are not trusted. -/
def c2state : DriverState :=
  ⟨[[⟨0, 0, 1, 0⟩]], ⟨[(⟨1, 0⟩, 42)], fun _ => 0⟩, ⟨2, 0⟩⟩

/-- C2, witness: after signalling disk 0 failed, reading block 0 of
tagline 0 (whose primary was on disk 0) returns the last-written 42. -/
theorem recovery_soundness_witness :
    (0 : Nat) < RAID_DISKS ∧
      (tagline_read TAGLINE_CACHE_SIZE
          (raid_disk_signal TAGLINE_CACHE_SIZE (fun d => d == 0) c2state).1 0 0 1).1
        = some [42] :=
  ⟨by decide,
    recovery_soundness TAGLINE_CACHE_SIZE 0 c2state (fun _ => 42) 0 0 [⟨0, 0, 1, 0⟩]
      ⟨0, 0, 1, 0⟩ (by decide) (by unfold cacheWF; decide) (by decide) (by decide)
      (by unfold healthyGood value_of; decide) rfl rfl (Or.inl rfl)⟩

/-! ## Recovery ordering -/

/-- Is the event a STATUS request? -/
def isStatusEv : BusEvent → Bool
  | .statusReq _ => true
  | _ => false

/-- Is the event a FORMAT request? -/
def isFormatEv : BusEvent → Bool
  | .formatReq _ => true
  | _ => false

/-- Does some FORMAT request appear strictly before a later STATUS
request?  The claim that STATUS is issued for all disks before any FORMAT
says exactly that this is `false` for every recovery trace. -/
def formatThenStatus : List BusEvent → Bool
  | [] => false
  | e :: rest => (isFormatEv e && rest.any isStatusEv) || formatThenStatus rest

/-- Scanning check: every FORMAT names a disk whose STATUS was already
issued earlier in the trace. -/
def formatsAfterStatus : List Nat → List BusEvent → Bool
  | _, [] => true
  | seen, BusEvent.statusReq d :: rest => formatsAfterStatus (d :: seen) rest
  | seen, BusEvent.formatReq d :: rest => seen.contains d && formatsAfterStatus seen rest
  | seen, _ :: rest => formatsAfterStatus seen rest

/-- Scanning check: every rebuild put targets a disk already formatted
earlier in the trace. -/
def putsAfterFormat : List Nat → List BusEvent → Bool
  | _, [] => true
  | seen, BusEvent.formatReq d :: rest => putsAfterFormat (d :: seen) rest
  | seen, BusEvent.recoverPut k :: rest => seen.contains k.disk && putsAfterFormat seen rest
  | seen, _ :: rest => putsAfterFormat seen rest

/-- The STATUS disks collected by a scan. -/
def statusSeen : List Nat → List BusEvent → List Nat
  | seen, [] => seen
  | seen, BusEvent.statusReq d :: rest => statusSeen (d :: seen) rest
  | seen, _ :: rest => statusSeen seen rest

/-- The FORMAT disks collected by a scan. -/
def formatSeen : List Nat → List BusEvent → List Nat
  | seen, [] => seen
  | seen, BusEvent.formatReq d :: rest => formatSeen (d :: seen) rest
  | seen, _ :: rest => formatSeen seen rest

theorem formatsAfterStatus_append :
    ∀ (l₁ : List BusEvent) (seen : List Nat) (l₂ : List BusEvent),
      formatsAfterStatus seen (l₁ ++ l₂) =
        (formatsAfterStatus seen l₁ && formatsAfterStatus (statusSeen seen l₁) l₂) := by
  intro l₁
  induction l₁ with
  | nil => intro seen l₂; simp [formatsAfterStatus, statusSeen]
  | cons e rest ih =>
      intro seen l₂
      cases e with
      | statusReq d => simp [formatsAfterStatus, statusSeen, ih]
      | formatReq d => simp [formatsAfterStatus, statusSeen, ih, Bool.and_assoc]
      | readReq k => simp [formatsAfterStatus, statusSeen, ih]
      | recoverPut k => simp [formatsAfterStatus, statusSeen, ih]

theorem putsAfterFormat_append :
    ∀ (l₁ : List BusEvent) (seen : List Nat) (l₂ : List BusEvent),
      putsAfterFormat seen (l₁ ++ l₂) =
        (putsAfterFormat seen l₁ && putsAfterFormat (formatSeen seen l₁) l₂) := by
  intro l₁
  induction l₁ with
  | nil => intro seen l₂; simp [putsAfterFormat, formatSeen]
  | cons e rest ih =>
      intro seen l₂
      cases e with
      | statusReq d => simp [putsAfterFormat, formatSeen, ih]
      | formatReq d => simp [putsAfterFormat, formatSeen, ih]
      | readReq k => simp [putsAfterFormat, formatSeen, ih]
      | recoverPut k => simp [putsAfterFormat, formatSeen, ih, Bool.and_assoc]

/-- Every event a directory walk for failed disk `d` emits is either a
READ of a surviving side or a rebuild put under an address on `d`. -/
def walkEventsOK (d : Nat) (evs : List BusEvent) : Prop :=
  ∀ e ∈ evs, (∃ k, e = BusEvent.readReq k) ∨ ∃ k, e = BusEvent.recoverPut k ∧ k.disk = d

theorem recover_block_events (cap d : Nat) (r : RaidState) (p : Placement) :
    walkEventsOK d (recover_block cap d r p).2 := by
  unfold recover_block
  by_cases h1 : p.RAID_disk = d
  · simp only [if_pos h1]
    cases get_raid_cache r p.backupKey with
    | some bv =>
        intro e he
        simp only [List.mem_singleton] at he
        exact Or.inr ⟨p.primaryKey, he, h1⟩
    | none =>
        intro e he
        simp only [List.mem_cons, List.mem_singleton, List.not_mem_nil, or_false] at he
        rcases he with rfl | rfl
        · exact Or.inl ⟨p.backupKey, rfl⟩
        · exact Or.inr ⟨p.primaryKey, rfl, h1⟩
  · simp only [if_neg h1]
    by_cases h2 : p.backup_disk = d
    · simp only [if_pos h2]
      cases get_raid_cache r p.primaryKey with
      | some bv =>
          intro e he
          simp only [List.mem_singleton] at he
          exact Or.inr ⟨p.backupKey, he, h2⟩
      | none =>
          intro e he
          simp only [List.mem_cons, List.mem_singleton, List.not_mem_nil, or_false] at he
          rcases he with rfl | rfl
          · exact Or.inl ⟨p.primaryKey, rfl⟩
          · exact Or.inr ⟨p.backupKey, rfl, h2⟩
    · simp only [if_neg h2]
      intro e he
      simp at he

theorem recover_walk_cons_events (cap d : Nat) (r : RaidState) (p : Placement)
    (ps : List Placement) :
    (recover_walk cap d r (p :: ps)).2 =
      (recover_block cap d r p).2 ++ (recover_walk cap d (recover_block cap d r p).1 ps).2 := by
  simp only [recover_walk]

theorem recover_walk_events (cap d : Nat) :
    ∀ (ps : List Placement) (r : RaidState), walkEventsOK d (recover_walk cap d r ps).2 := by
  intro ps
  induction ps with
  | nil => intro r e he; simp [recover_walk] at he
  | cons p rest ih =>
      intro r
      rw [recover_walk_cons_events]
      intro e he
      rcases List.mem_append.1 he with h | h
      · exact recover_block_events cap d r p e h
      · exact ih _ e h

theorem formatsAfterStatus_walk (d : Nat) :
    ∀ (evs : List BusEvent), walkEventsOK d evs →
      ∀ seen : List Nat, formatsAfterStatus seen evs = true := by
  intro evs
  induction evs with
  | nil => intro h seen; rfl
  | cons e rest ih =>
      intro h seen
      have hrest : walkEventsOK d rest := fun e' h' => h e' (List.mem_cons_of_mem e h')
      rcases h e (List.mem_cons_self e rest) with ⟨k, rfl⟩ | ⟨k, rfl, hk⟩
      · simpa [formatsAfterStatus] using ih hrest seen
      · simpa [formatsAfterStatus] using ih hrest seen

theorem putsAfterFormat_walk (d : Nat) :
    ∀ (evs : List BusEvent), walkEventsOK d evs →
      ∀ seen : List Nat, seen.contains d = true → putsAfterFormat seen evs = true := by
  intro evs
  induction evs with
  | nil => intro h seen hd; rfl
  | cons e rest ih =>
      intro h seen hd
      have hrest : walkEventsOK d rest := fun e' h' => h e' (List.mem_cons_of_mem e h')
      rcases h e (List.mem_cons_self e rest) with ⟨k, rfl⟩ | ⟨k, rfl, hk⟩
      · simpa [putsAfterFormat] using ih hrest seen hd
      · simp only [putsAfterFormat, hk, hd, Bool.true_and]
        exact ih hrest seen hd

theorem signal_disk_trace (cap : Nat) (failed : Nat → Bool) (ps : List Placement)
    (acc : RaidState × List BusEvent) (d : Nat) :
    (signal_disk cap failed ps acc d).2 =
      acc.2 ++ (if failed d then
        BusEvent.statusReq d :: BusEvent.formatReq d ::
          (recover_walk cap d (format_disk acc.1 d) ps).2
      else [BusEvent.statusReq d]) := by
  unfold signal_disk
  by_cases h : failed d = true
  · rw [if_pos h, if_pos h]
    rcases recover_walk cap d (format_disk acc.1 d) ps with ⟨r₂, evs⟩
    simp
  · rw [if_neg h, if_neg h]

theorem foldl_signal_scan (cap : Nat) (failed : Nat → Bool) (ps : List Placement) :
    ∀ (ds : List Nat) (acc : RaidState × List BusEvent) (seenS seenF : List Nat),
      formatsAfterStatus seenS acc.2 = true →
      putsAfterFormat seenF acc.2 = true →
      formatsAfterStatus seenS (ds.foldl (signal_disk cap failed ps) acc).2 = true ∧
        putsAfterFormat seenF (ds.foldl (signal_disk cap failed ps) acc).2 = true := by
  intro ds
  induction ds with
  | nil => intro acc seenS seenF h1 h2; exact ⟨h1, h2⟩
  | cons d rest ih =>
      intro acc seenS seenF h1 h2
      rw [List.foldl_cons]
      apply ih
      · rw [signal_disk_trace, formatsAfterStatus_append, h1, Bool.true_and]
        by_cases hf : failed d = true
        · rw [if_pos hf]
          simp only [formatsAfterStatus]
          rw [show ((d :: statusSeen seenS acc.2).contains d) = true by simp,
            Bool.true_and]
          exact formatsAfterStatus_walk d _
            (recover_walk_events cap d ps (format_disk acc.1 d)) _
        · rw [if_neg hf]
          rfl
      · rw [signal_disk_trace, putsAfterFormat_append, h2, Bool.true_and]
        by_cases hf : failed d = true
        · rw [if_pos hf]
          simp only [putsAfterFormat]
          exact putsAfterFormat_walk d _
            (recover_walk_events cap d ps (format_disk acc.1 d)) _ (by simp)
        · rw [if_neg hf]
          rfl

/-- Concrete state for the recovery-ordering counterexample: one
placement `(0,0)/(1,0)` and an empty cache; disk 0 is reported failed. -/
def c8state : DriverState :=
  ⟨[[⟨0, 0, 1, 0⟩]], ⟨[], fun _ => 0⟩, ⟨2, 0⟩⟩

/-- C8, counterexample: with disk 0 failed, `raid_disk_signal` issues
FORMAT 0 immediately after STATUS 0 and before STATUS 1..8, so the STATUS
requests of all disks do not all precede the first FORMAT. -/
theorem format_issued_before_later_status :
    (raid_disk_signal TAGLINE_CACHE_SIZE (fun d => d == 0) c8state).2 =
        [BusEvent.statusReq 0, BusEvent.formatReq 0, BusEvent.readReq ⟨1, 0⟩,
          BusEvent.recoverPut ⟨0, 0⟩, BusEvent.statusReq 1, BusEvent.statusReq 2,
          BusEvent.statusReq 3, BusEvent.statusReq 4, BusEvent.statusReq 5,
          BusEvent.statusReq 6, BusEvent.statusReq 7, BusEvent.statusReq 8] ∧
      formatThenStatus (raid_disk_signal TAGLINE_CACHE_SIZE (fun d => d == 0) c8state).2
        = true := by
  refine ⟨by decide, by decide⟩

/-- C8, amended: in every `raid_disk_signal` trace, each FORMAT is issued
only for a disk whose own STATUS was already polled (disks are handled in
increasing order, a failed disk being formatted and rebuilt before the
next disk's STATUS), and every rebuild put targets a disk that was already
formatted. -/
theorem recovery_ordering (cap : Nat) (failed : Nat → Bool) (s : DriverState) :
    formatsAfterStatus [] (raid_disk_signal cap failed s).2 = true ∧
      putsAfterFormat [] (raid_disk_signal cap failed s).2 = true := by
  unfold raid_disk_signal
  rcases hf : (List.range RAID_DISKS).foldl (signal_disk cap failed s.taglines.flatten)
      (s.raid, []) with ⟨r, evs⟩
  have h := foldl_signal_scan cap failed s.taglines.flatten (List.range RAID_DISKS)
    (s.raid, []) [] [] rfl rfl
  rw [hf] at h
  exact h
